import Mathlib

/-!
Shallow embedding of `cords/selectionstrategies/supervisedlearning/glisterstrategy.py`
(class `GLISTERStrategy`), the greedy coreset-selection engine, together with
theorems settling the specification claims about it.

Modelling conventions:
* Gradient vectors (rows of `grads_per_elem`, `grads_currX`, `grads_val_curr`)
  are lists over an arbitrary linear ordered commutative ring `α`.  Python
  floats are exact rational numbers, and `ℚ` is such a ring, so the float model
  is an instance; concrete witnesses use `α := ℤ` (integer-valued gradients are
  legitimate float values).  "To floating-point tolerance" becomes exact
  equality.
* The transcendental parts (`compute_gradients` from the parent class, and the
  softmax/Taylor computation inside `_update_grads_val`) influence the
  selection loop only through the numeric vectors they produce; they are
  abstracted into the fields of `GLISTERInputs` and every theorem is proved
  for all values of those fields.
* Tensors are modelled with explicit aliasing: `grads_currX` may be a view of a
  row of `grads_per_elem` (as in the source, lines 247 and 271), and in-place
  `+=` writes through the view.  The cache is therefore part of the mutable
  selection state.
* Fallible operations return `Option`: `torch.argmax` on an empty tensor and
  `np.random.choice(pop, size, replace=False)` with `size > len(pop)` raise,
  and Python division by zero raises; each is modelled as `none`.
* Loops are modelled with explicit fuel; a diverging loop yields `none` for
  every fuel value.
-/

namespace GLISTER

variable {α : Type} [LinearOrderedCommRing α]

/-- A dense gradient vector (one row of a tensor). -/
abbrev Vec (α : Type) := List α

/-- Componentwise addition of two gradient vectors (`torch` elementwise `+`). -/
def vecAdd (v w : Vec α) : Vec α := List.zipWith (· + ·) v w

/-- Inner product of two gradient vectors (`torch.matmul` of a row with a
column). -/
def dot (v w : Vec α) : α := (List.zipWith (· * ·) v w).sum

/-- Sum of a list of `D`-dimensional vectors (`tensor.sum(dim=0)` of a `k × D`
tensor, which is `zeros(D)` when `k = 0`). -/
def vecSum (D : ℕ) (l : List (Vec α)) : Vec α := l.foldl vecAdd (List.replicate D 0)

/-- Index of the first occurrence of the maximum entry (`torch.argmax` on a
1-d tensor; the first maximal index is returned on ties). -/
def argmaxIdx [LinearOrder β] [Zero β] : List β → ℕ
  | [] => 0
  | [_] => 0
  | x :: y :: xs =>
    if x < (y :: xs).getD (argmaxIdx (y :: xs)) 0 then argmaxIdx (y :: xs) + 1 else 0

theorem vecAdd_length (v w : Vec α) : (vecAdd v w).length = min v.length w.length := by
  simp [vecAdd]

theorem vecAdd_zero_left {D : ℕ} {v : Vec α} (h : v.length = D) :
    vecAdd (List.replicate D 0) v = v := by
  induction v generalizing D with
  | nil => subst h; simp [vecAdd]
  | cons x xs ih =>
    subst h
    simpa [vecAdd, List.replicate_succ] using ih rfl

theorem vecSum_append_single (D : ℕ) (l : List (Vec α)) (v : Vec α) :
    vecSum D (l ++ [v]) = vecAdd (vecSum D l) v := by
  simp [vecSum, List.foldl_append]

theorem argmaxIdx_lt_length [LinearOrder β] [Zero β] (l : List β) (h : l ≠ []) :
    argmaxIdx l < l.length := by
  match l with
  | [x] => simp [argmaxIdx]
  | x :: y :: xs =>
    have ih := argmaxIdx_lt_length (y :: xs) (by simp)
    simp only [List.length_cons] at ih
    by_cases hc : x < (y :: xs).getD (argmaxIdx (y :: xs)) 0
    · simp only [argmaxIdx, if_pos hc, List.length_cons]
      omega
    · simp only [argmaxIdx, if_neg hc, List.length_cons]
      omega

theorem getD_le_argmaxIdx [LinearOrder β] [Zero β] (l : List β) (j : ℕ) (hj : j < l.length) :
    l.getD j 0 ≤ l.getD (argmaxIdx l) 0 := by
  match l with
  | [x] =>
    match j with
    | 0 => simp [argmaxIdx]
    | j + 1 => simp at hj
  | x :: y :: xs =>
    have ih := fun j hj => getD_le_argmaxIdx (y :: xs) j hj
    by_cases hc : x < (y :: xs).getD (argmaxIdx (y :: xs)) 0
    · simp only [argmaxIdx, if_pos hc]
      match j with
      | 0 => exact le_of_lt hc
      | j + 1 =>
        have := ih j (by simpa using hj)
        simpa using this
    · push_neg at hc
      simp only [argmaxIdx, if_neg (not_lt.mpr hc)]
      match j with
      | 0 => simp
      | j + 1 =>
        have h1 := ih j (by simpa using hj)
        simpa using le_trans h1 hc

/-- Total preorder on positions of a score list: descending score, ties broken
by ascending position.  This is the order in which
`torch.sort(gains.view(-1), descending=True)` returns indices (the tie order of
`torch.sort` is unspecified; we fix the ascending-index policy, which is the one
the specification describes). -/
def gainOrder (gains : List α) (i j : ℕ) : Prop :=
  gains.getD j 0 < gains.getD i 0 ∨ (gains.getD i 0 = gains.getD j 0 ∧ i ≤ j)

instance (gains : List α) : DecidableRel (gainOrder gains) := fun i j => by
  unfold gainOrder; infer_instance

/-- Positions `0, …, gains.length - 1` sorted by descending score
(`torch.sort(..., descending=True)`'s index output). -/
def sortIdxDesc (gains : List α) : List ℕ :=
  List.insertionSort (gainOrder gains) (List.range gains.length)

/-- The numeric inputs that `GLISTERStrategy.select` works from, fixed for one
call.  `grads_per_elem` models the per-element gradient cache produced by
`compute_gradients` (defined in the parent class `DataSelectionStrategy`, not
part of the selection loop; the claims quantify over an arbitrary fixed cache).
`grads_val_first` is `grads_val_curr` right after
`_update_grads_val(first_init=True)` (source lines 71–102, a softmax
computation over the validation set, constant during the loop).
`upd_grads_val` models `_update_grads_val(grads_currX)` (source lines 104–123):
a fixed transcendental function of the cumulative gradient `grads_currX` (the
cached `init_out`, `init_l1`, `y_val` do not change during the loop), abstracted
as an arbitrary function; every theorem below holds for all of its values. -/
structure GLISTERInputs (α : Type) where
  N_trn : ℕ
  D : ℕ
  grads_per_elem : ℕ → Vec α
  grads_val_first : Vec α
  upd_grads_val : Vec α → Vec α

/-- The mutable state of one `select` call.  `cache` is the current contents of
the `grads_per_elem` tensor (it can be mutated through the `grads_currX` view,
see `iaddCurrX`); `currXAlias = some i` records that `grads_currX` is a view of
row `i` of the cache (source lines 247 and 271 create such a view). -/
structure SelState (α : Type) where
  greedySet : List ℕ
  remainSet : List ℕ
  numSelected : ℕ
  cache : ℕ → Vec α
  currX : Vec α
  currXAlias : Option ℕ
  grads_val_curr : Vec α

/-- The state at the top of the selection loop (source lines 196–198):
empty selected set, remaining set `[0, N)`, pristine cache. -/
def initState (P : GLISTERInputs α) : SelState α :=
  { greedySet := [], remainSet := List.range P.N_trn, numSelected := 0,
    cache := P.grads_per_elem, currX := [], currXAlias := none,
    grads_val_curr := P.grads_val_first }

/-- In-place `grads_X += grads_e` (source lines 161 and 164): updates
`grads_currX`, and writes through to the cache row it aliases, if any. -/
def iaddCurrX (st : SelState α) (v : Vec α) : SelState α :=
  { st with currX := vecAdd st.currX v,
            cache := fun j =>
              if st.currXAlias = some j then vecAdd st.currX v else st.cache j }

/-- `eval_taylor_modular(self.grads_per_elem[idxs])` (source lines 125–143
together with the fancy-indexing read): the score of each listed element is the
inner product of its current cache row with `grads_val_curr`. -/
def eval_taylor_modular (st : SelState α) (idxs : List ℕ) : List α :=
  idxs.map fun i => dot (st.cache i) st.grads_val_curr

/-- `bestId = idxs[torch.argmax(eval_taylor_modular(grads_per_elem[idxs])).item()]`
(source lines 239 and 263): the first maximal-score element of a candidate
list. -/
def bestFrom (st : SelState α) (idxs : List ℕ) : ℕ :=
  idxs.getD (argmaxIdx (eval_taylor_modular st idxs)) 0

/-- The shared tail of one Naive / Stochastic iteration after the winner
`b` is known (source lines 240–249 and 264–273): append `b` to `greedySet`,
remove it from `remainSet`, increment `numSelected`; on the first selection
`grads_currX` becomes a view of `b`'s cache row (lines 247 / 271), otherwise
`b`'s row is added in place (lines 245 / 269 → `_update_gradients_subset`);
finally `_update_grads_val(grads_currX)` refreshes the validation gradient. -/
def commitOne (P : GLISTERInputs α) (st : SelState α) (b : ℕ) : SelState α :=
  let st1 : SelState α :=
    { st with greedySet := st.greedySet ++ [b],
              remainSet := st.remainSet.erase b,
              numSelected := st.numSelected + 1 }
  let st2 := if st1.numSelected > 1 then iaddCurrX st1 (st1.cache b)
             else { st1 with currX := st1.cache b, currXAlias := some b }
  { st2 with grads_val_curr := P.upd_grads_val st2.currX }

/-- One iteration of the Naive greedy loop (source lines 257–276).
`torch.argmax` on an empty score tensor raises, hence `none` when the
remaining set is empty. -/
def naiveStep (P : GLISTERInputs α) (st : SelState α) : Option (SelState α) :=
  if st.remainSet.isEmpty then none
  else some (commitOne P st (bestFrom st st.remainSet))

/-- One iteration of the Stochastic greedy loop (source lines 232–252).
`pick k pop sz` models the sample `np.random.choice(pop, size=sz,
replace=False)` drawn at iteration `k`; `np.random.choice` raises when
`sz > len(pop)` and `torch.argmax` raises on an empty sample, hence the `none`
cases. -/
def stochStep (P : GLISTERInputs α) (pick : ℕ → List ℕ → ℕ → List ℕ) (ss : ℕ)
    (st : SelState α) : Option (SelState α) :=
  if ss ≤ st.remainSet.length then
    let subset_selected := pick st.numSelected st.remainSet ss
    if subset_selected.isEmpty then none
    else some (commitOne P st (bestFrom st subset_selected))
  else none

/-- The elements an RGreedy iteration commits:
`[remainSet[index.item()] for index in indices[0:selection_size]]`
(source lines 212–213).  The Python slice silently clamps to the number of
remaining elements. -/
def rgreedySelected (selection_size : ℕ) (st : SelState α) : List ℕ :=
  ((sortIdxDesc (eval_taylor_modular st st.remainSet)).take selection_size).map
    fun k => st.remainSet.getD k 0

/-- One iteration of the RGreedy loop (source lines 206–225).  The top
`selection_size` remaining elements by descending score are committed.
`grads_currX` starts as a fresh tensor (line 219, a reduction of a
fancy-indexing copy — no aliasing), so the cache is never written through;
`numSelected` is increased by `selection_size` (line 225) even when fewer
elements were actually committed. -/
def rgreedyStep (P : GLISTERInputs α) (selection_size : ℕ) (st : SelState α) : SelState α :=
  let selected_indices := rgreedySelected selection_size st
  let st1 : SelState α :=
    { st with greedySet := st.greedySet ++ selected_indices,
              remainSet := selected_indices.foldl (fun l i => l.erase i) st.remainSet }
  let st2 := if st.numSelected > 0 then
               iaddCurrX st1 (vecSum P.D (selected_indices.map st1.cache))
             else { st1 with currX := vecSum P.D (selected_indices.map st1.cache),
                             currXAlias := none }
  { st2 with grads_val_curr := P.upd_grads_val st2.currX,
             numSelected := st2.numSelected + selection_size }

/-- The Naive `while (numSelected < budget)` loop (source lines 257–277), with
explicit fuel; `none` means the loop raised or ran out of fuel. -/
def naiveLoop (P : GLISTERInputs α) (budget : ℕ) : ℕ → SelState α → Option (SelState α)
  | 0, st => if st.numSelected < budget then none else some st
  | fuel + 1, st =>
    if st.numSelected < budget then (naiveStep P st).bind (naiveLoop P budget fuel)
    else some st

/-- The Stochastic `while (numSelected < budget)` loop (source lines 232–253). -/
def stochLoop (P : GLISTERInputs α) (pick : ℕ → List ℕ → ℕ → List ℕ) (ss budget : ℕ) :
    ℕ → SelState α → Option (SelState α)
  | 0, st => if st.numSelected < budget then none else some st
  | fuel + 1, st =>
    if st.numSelected < budget then (stochStep P pick ss st).bind (stochLoop P pick ss budget fuel)
    else some st

/-- The RGreedy `while (numSelected < budget)` loop (source lines 206–226). -/
def rgreedyLoop (P : GLISTERInputs α) (selection_size budget : ℕ) :
    ℕ → SelState α → Option (SelState α)
  | 0, st => if st.numSelected < budget then none else some st
  | fuel + 1, st =>
    if st.numSelected < budget then
      rgreedyLoop P selection_size budget fuel (rgreedyStep P selection_size st)
    else some st

/-- `subset_size = int((len(self.grads_per_elem) / budget) * math.log(100))`
(source line 231): Python float arithmetic modelled over the reals, `int()` of
a positive float is the floor. -/
noncomputable def subset_size (N budget : ℕ) : ℤ :=
  ⌊((N : ℝ) / (budget : ℝ)) * Real.log 100⌋

/-- The sample size as the specification words it:
`round((|pool| / budget) × ln(100))`.  Written from the spec's words, to be
compared with `subset_size`, which is what the source computes. -/
noncomputable def subset_size_rounded (N budget : ℕ) : ℤ :=
  round (((N : ℝ) / (budget : ℝ)) * Real.log 100)

/-- `GLISTERStrategy.select` (source lines 167–279).  `selection_type` and `r`
are the configuration fields `self.selection_type` and `self.r`; `pick` is the
process's randomness source (consumed only by the Stochastic branch); `fuel`
bounds the number of loop iterations (the Python loop is unbounded).  Python
raising (`ZeroDivisionError` at line 231 when `budget == 0`, or at line 205
when `r == 0`; `torch.argmax` / `np.random.choice` errors inside the loops)
is `none`.  An unrecognized `selection_type` matches no branch and falls
through to the final return (line 279), which pairs the selected indices with
`torch.ones(budget)`. -/
noncomputable def select (P : GLISTERInputs α) (selection_type : String) (r : ℕ)
    (pick : ℕ → List ℕ → ℕ → List ℕ) (budget : ℕ) (fuel : ℕ) :
    Option (List ℕ × List α) :=
  if selection_type = "RGreedy" then
    if r = 0 then none
    else (rgreedyLoop P (budget / r) budget fuel (initState P)).map
      fun st => (st.greedySet, List.replicate budget 1)
  else if selection_type = "Stochastic" then
    if budget = 0 then none
    else (stochLoop P pick (subset_size P.N_trn budget).toNat budget fuel (initState P)).map
      fun st => (st.greedySet, List.replicate budget 1)
  else if selection_type = "Naive" then
    (naiveLoop P budget fuel (initState P)).map
      fun st => (st.greedySet, List.replicate budget 1)
  else some ([], List.replicate budget 1)

/-! ### Basic facts about the vector operations -/

theorem vecAdd_zero_right {D : ℕ} {v : Vec α} (h : v.length = D) :
    vecAdd v (List.replicate D 0) = v := by
  induction v generalizing D with
  | nil => subst h; simp [vecAdd]
  | cons x xs ih =>
    subst h
    simpa [vecAdd, List.replicate_succ] using ih rfl

theorem vecAdd_assoc (a b c : Vec α) : vecAdd (vecAdd a b) c = vecAdd a (vecAdd b c) := by
  induction a generalizing b c with
  | nil => simp [vecAdd]
  | cons x xs ih =>
    cases b with
    | nil => simp [vecAdd]
    | cons y ys =>
      cases c with
      | nil => simp [vecAdd]
      | cons z zs =>
        simp only [vecAdd, List.zipWith_cons_cons, add_assoc, List.cons.injEq, true_and]
        exact ih ys zs

theorem foldl_vecAdd_length {D : ℕ} (l : List (Vec α)) (acc : Vec α) (ha : acc.length = D)
    (hl : ∀ v ∈ l, v.length = D) : (l.foldl vecAdd acc).length = D := by
  induction l generalizing acc with
  | nil => simpa using ha
  | cons v vs ih =>
    simp only [List.foldl_cons]
    refine ih (vecAdd acc v) ?_ (fun w hw => hl w (by simp [hw]))
    rw [vecAdd_length, ha, hl v (by simp)]
    simp

theorem vecSum_length {D : ℕ} (l : List (Vec α)) (hl : ∀ v ∈ l, v.length = D) :
    (vecSum D l).length = D :=
  foldl_vecAdd_length l _ (by simp) hl

theorem foldl_vecAdd_eq {D : ℕ} (l : List (Vec α)) (hl : ∀ v ∈ l, v.length = D)
    (acc : Vec α) (ha : acc.length = D) :
    l.foldl vecAdd acc = vecAdd acc (vecSum D l) := by
  induction l generalizing acc with
  | nil => simp [vecSum, vecAdd_zero_right ha]
  | cons v vs ih =>
    have hv : v.length = D := hl v (by simp)
    have hrest : ∀ w ∈ vs, w.length = D := fun w hw => hl w (by simp [hw])
    have hlen : (vecAdd acc v).length = D := by rw [vecAdd_length, ha, hv]; simp
    calc (v :: vs).foldl vecAdd acc
        = vs.foldl vecAdd (vecAdd acc v) := by simp
      _ = vecAdd (vecAdd acc v) (vecSum D vs) := ih hrest _ hlen
      _ = vecAdd acc (vecAdd v (vecSum D vs)) := vecAdd_assoc _ _ _
      _ = vecAdd acc (vecSum D (v :: vs)) := by
          have : vecSum D (v :: vs) = vecAdd v (vecSum D vs) := by
            have := ih hrest (vecAdd (List.replicate D 0) v)
              (by rw [vecAdd_length, hv]; simp)
            simpa [vecSum, vecAdd_zero_left hv] using this
          rw [this]

theorem vecSum_add {D : ℕ} (l₁ l₂ : List (Vec α)) (h₁ : ∀ v ∈ l₁, v.length = D)
    (h₂ : ∀ v ∈ l₂, v.length = D) :
    vecSum D (l₁ ++ l₂) = vecAdd (vecSum D l₁) (vecSum D l₂) := by
  rw [vecSum, List.foldl_append]
  exact foldl_vecAdd_eq l₂ h₂ _ (vecSum_length l₁ h₁)

theorem vecSum_single {D : ℕ} {v : Vec α} (h : v.length = D) :
    vecSum D [v] = v := by
  simp [vecSum, vecAdd_zero_left h]

/-! ### The score of an element, and facts about argmax and the sort order -/

/-- The marginal-gain score of element `x` in state `st`: the inner product of
its current cache row with the current validation gradient (one entry of the
`gains` tensor). -/
def score (st : SelState α) (x : ℕ) : α := dot (st.cache x) st.grads_val_curr

theorem eval_taylor_modular_eq_map (st : SelState α) (idxs : List ℕ) :
    eval_taylor_modular st idxs = idxs.map (score st) := rfl

theorem getD_map_score (st : SelState α) (idxs : List ℕ) (k : ℕ) (hk : k < idxs.length) :
    (idxs.map (score st)).getD k 0 = score st (idxs.getD k 0) := by
  rw [List.getD_eq_getElem?_getD, List.getElem?_map, List.getD_eq_getElem?_getD,
    List.getElem?_eq_getElem hk]
  simp

/-- The element committed by `remainSet[torch.argmax(gains).item()]` is a member
of the candidate list and maximizes the score over it. -/
theorem argmax_elem (st : SelState α) (idxs : List ℕ) (h : idxs ≠ []) :
    bestFrom st idxs ∈ idxs ∧
    ∀ x ∈ idxs, score st x ≤ score st (bestFrom st idxs) := by
  rw [bestFrom, eval_taylor_modular_eq_map]
  have hlen : (idxs.map (score st)).length = idxs.length := by simp
  have hmax : argmaxIdx (idxs.map (score st)) < idxs.length := by
    rw [← hlen]
    exact argmaxIdx_lt_length _ (by simpa using h)
  constructor
  · rw [List.getD_eq_getElem idxs 0 hmax]
    exact List.getElem_mem hmax
  · intro x hx
    obtain ⟨j, hjlt, hget⟩ := List.getElem_of_mem hx
    have h1 := getD_le_argmaxIdx (idxs.map (score st)) j (by simpa using hjlt)
    rw [getD_map_score st idxs j hjlt, getD_map_score st idxs _ hmax] at h1
    rwa [List.getD_eq_getElem idxs 0 hjlt, hget] at h1

instance gainOrder_total (gains : List α) : IsTotal ℕ (gainOrder gains) := by
  constructor
  intro i j
  rcases lt_trichotomy (gains.getD i 0) (gains.getD j 0) with h | h | h
  · exact Or.inr (Or.inl h)
  · rcases Nat.le_total i j with hij | hij
    · exact Or.inl (Or.inr ⟨h, hij⟩)
    · exact Or.inr (Or.inr ⟨h.symm, hij⟩)
  · exact Or.inl (Or.inl h)

instance gainOrder_trans (gains : List α) : IsTrans ℕ (gainOrder gains) := by
  constructor
  rintro i j k (h1 | ⟨h1, h1'⟩) (h2 | ⟨h2, h2'⟩)
  · exact Or.inl (h2.trans h1)
  · exact Or.inl (h2 ▸ h1)
  · exact Or.inl (h1 ▸ h2)
  · exact Or.inr ⟨h1.trans h2, h1'.trans h2'⟩

theorem sortIdxDesc_perm (gains : List α) :
    (sortIdxDesc gains).Perm (List.range gains.length) :=
  List.perm_insertionSort _ _

theorem sortIdxDesc_sorted (gains : List α) :
    List.Sorted (gainOrder gains) (sortIdxDesc gains) :=
  List.sorted_insertionSort _ _

theorem sortIdxDesc_nodup (gains : List α) : (sortIdxDesc gains).Nodup :=
  (sortIdxDesc_perm gains).nodup_iff.mpr (List.nodup_range _)

theorem sortIdxDesc_mem_lt (gains : List α) {k : ℕ} (h : k ∈ sortIdxDesc gains) :
    k < gains.length := by
  have := (sortIdxDesc_perm gains).mem_iff.mp h
  simpa using this

/-! ### Characterizing the effect of one iteration -/

/-- The contract of `np.random.choice(pop, size=sz, replace=False)` (an
external-library guarantee, not repository code): when `sz ≤ len(pop)` the
sample has exactly `sz` entries, all drawn from `pop`, pairwise-distinct
positions (hence distinct values when `pop` has no duplicates). -/
def ValidSampler (pick : ℕ → List ℕ → ℕ → List ℕ) : Prop :=
  ∀ k pop sz, sz ≤ pop.length →
    (pick k pop sz).length = sz ∧ (∀ x ∈ pick k pop sz, x ∈ pop) ∧
    (pop.Nodup → (pick k pop sz).Nodup)

/-- The deterministic sampler that always returns the first `sz` elements of
the population; used to instantiate theorems at concrete inputs. -/
def takePick : ℕ → List ℕ → ℕ → List ℕ := fun _ pop sz => pop.take sz

theorem takePick_valid : ValidSampler takePick := by
  intro k pop sz hsz
  refine ⟨by simpa [takePick] using hsz, fun x hx => ?_, fun hnd => ?_⟩
  · exact List.take_subset _ _ hx
  · exact hnd.sublist (List.take_sublist _ _)

theorem commitOne_fields (P : GLISTERInputs α) (st : SelState α) (b : ℕ) :
    (commitOne P st b).greedySet = st.greedySet ++ [b] ∧
    (commitOne P st b).remainSet = st.remainSet.erase b ∧
    (commitOne P st b).numSelected = st.numSelected + 1 ∧
    (commitOne P st b).currX =
      (if 0 < st.numSelected then vecAdd st.currX (st.cache b) else st.cache b) ∧
    (commitOne P st b).currXAlias =
      (if 0 < st.numSelected then st.currXAlias else some b) ∧
    (commitOne P st b).cache = fun j =>
      if 0 < st.numSelected ∧ st.currXAlias = some j
      then vecAdd st.currX (st.cache b) else st.cache j := by
  by_cases h : 0 < st.numSelected
  · have h1 : st.numSelected + 1 > 1 := by omega
    refine ⟨?_, ?_, ?_, ?_, ?_, ?_⟩ <;>
      simp [commitOne, iaddCurrX, h1, h]
  · have h1 : ¬(st.numSelected + 1 > 1) := by omega
    refine ⟨?_, ?_, ?_, ?_, ?_, ?_⟩ <;>
      simp [commitOne, iaddCurrX, h1, h]

theorem naiveStep_fields (P : GLISTERInputs α) {st st' : SelState α}
    (h : naiveStep P st = some st') :
    st.remainSet ≠ [] ∧ st' = commitOne P st (bestFrom st st.remainSet) := by
  unfold naiveStep at h
  split at h
  · exact absurd h (by simp)
  · next hemp =>
    refine ⟨by simpa [List.isEmpty_iff] using hemp, ?_⟩
    exact (Option.some.injEq _ _ ▸ h).symm

theorem stochStep_fields (P : GLISTERInputs α) {pick : ℕ → List ℕ → ℕ → List ℕ}
    {ss : ℕ} {st st' : SelState α} (h : stochStep P pick ss st = some st') :
    ss ≤ st.remainSet.length ∧ pick st.numSelected st.remainSet ss ≠ [] ∧
    st' = commitOne P st (bestFrom st (pick st.numSelected st.remainSet ss)) := by
  unfold stochStep at h
  split at h
  · next hss =>
    have h' : (if (pick st.numSelected st.remainSet ss).isEmpty = true then none
               else some (commitOne P st (bestFrom st (pick st.numSelected st.remainSet ss)))) =
        some st' := h
    clear h
    rename' h' => h
    split at h
    · exact absurd h (by simp)
    · next hemp =>
      refine ⟨hss, by simpa [List.isEmpty_iff] using hemp, ?_⟩
      exact (Option.some.injEq _ _ ▸ h).symm
  · exact absurd h (by simp)

theorem rgreedyStep_fields (P : GLISTERInputs α) (s : ℕ) (st : SelState α) :
    (rgreedyStep P s st).greedySet = st.greedySet ++ rgreedySelected s st ∧
    (rgreedyStep P s st).remainSet =
      (rgreedySelected s st).foldl (fun l i => l.erase i) st.remainSet ∧
    (rgreedyStep P s st).numSelected = st.numSelected + s ∧
    (rgreedyStep P s st).currX =
      (if 0 < st.numSelected
       then vecAdd st.currX (vecSum P.D ((rgreedySelected s st).map st.cache))
       else vecSum P.D ((rgreedySelected s st).map st.cache)) ∧
    (rgreedyStep P s st).currXAlias =
      (if 0 < st.numSelected then st.currXAlias else none) ∧
    (rgreedyStep P s st).cache = fun j =>
      if 0 < st.numSelected ∧ st.currXAlias = some j
      then vecAdd st.currX (vecSum P.D ((rgreedySelected s st).map st.cache))
      else st.cache j := by
  by_cases h : 0 < st.numSelected
  · refine ⟨?_, ?_, ?_, ?_, ?_, ?_⟩ <;> simp [rgreedyStep, iaddCurrX, h]
  · refine ⟨?_, ?_, ?_, ?_, ?_, ?_⟩ <;> simp [rgreedyStep, iaddCurrX, h]

/-! ### The selection-state invariant -/

/-- All rows of the gradient cache have the common dimension `D`
(`compute_gradients` concatenates per-element rows of one fixed width). -/
def RowsLen (P : GLISTERInputs α) : Prop := ∀ i, (P.grads_per_elem i).length = P.D

/-- Removing a duplicate-free batch of members one by one (the
`[remainSet.remove(idx) for idx in selected_indices]` idiom, line 215) splits
the list into the batch and the leftovers, up to order. -/
theorem perm_erase_foldl {sel l : List ℕ} (hnd : sel.Nodup) (hsub : ∀ x ∈ sel, x ∈ l) :
    (sel ++ sel.foldl (fun acc i => acc.erase i) l).Perm l := by
  induction sel generalizing l with
  | nil => simp
  | cons b rest ih =>
    have hb : b ∈ l := hsub b (by simp)
    have hnd' : rest.Nodup := hnd.of_cons
    have hsub' : ∀ x ∈ rest, x ∈ l.erase b := by
      intro x hx
      have hxb : x ≠ b := by
        rintro rfl
        exact (List.nodup_cons.mp hnd).1 hx
      exact (List.mem_erase_of_ne hxb).mpr (hsub x (by simp [hx]))
    have step : (b :: rest) ++ (b :: rest).foldl (fun acc i => acc.erase i) l =
        b :: (rest ++ rest.foldl (fun acc i => acc.erase i) (l.erase b)) := by simp
    rw [step]
    exact ((ih hnd' hsub').cons b).trans (List.perm_cons_erase hb).symm

/-- The invariant maintained by every iteration of every strategy:
`greedySet ++ remainSet` is a permutation of the full index range,
`numSelected` is positive exactly when something was selected,
`grads_currX` aliases at most the row of an already-selected element,
all other cache rows still hold their originally computed values, and
`grads_currX` equals the sum of the originally computed rows of the selected
elements. -/
structure StateWF (P : GLISTERInputs α) (st : SelState α) : Prop where
  part : (st.greedySet ++ st.remainSet).Perm (List.range P.N_trn)
  pos_iff : 0 < st.numSelected ↔ st.greedySet ≠ []
  alias_mem : ∀ a, st.currXAlias = some a → a ∈ st.greedySet
  cache_alias : ∀ i, st.currXAlias = some i → st.cache i = st.currX
  cache_pristine : ∀ i, st.currXAlias ≠ some i → st.cache i = P.grads_per_elem i
  sum_eq : st.greedySet ≠ [] → st.currX = vecSum P.D (st.greedySet.map P.grads_per_elem)

theorem StateWF.nodup_append {P : GLISTERInputs α} {st : SelState α} (h : StateWF P st) :
    (st.greedySet ++ st.remainSet).Nodup :=
  h.part.nodup_iff.mpr (List.nodup_range _)

theorem StateWF.disjoint {P : GLISTERInputs α} {st : SelState α} (h : StateWF P st) :
    st.greedySet.Disjoint st.remainSet :=
  (List.nodup_append.mp h.nodup_append).2.2

theorem StateWF.greedy_nodup {P : GLISTERInputs α} {st : SelState α} (h : StateWF P st) :
    st.greedySet.Nodup :=
  (List.nodup_append.mp h.nodup_append).1

theorem StateWF.remain_nodup {P : GLISTERInputs α} {st : SelState α} (h : StateWF P st) :
    st.remainSet.Nodup :=
  (List.nodup_append.mp h.nodup_append).2.1

theorem StateWF.mem_iff {P : GLISTERInputs α} {st : SelState α} (h : StateWF P st) (x : ℕ) :
    (x ∈ st.greedySet ∨ x ∈ st.remainSet) ↔ x < P.N_trn := by
  rw [← List.mem_append, h.part.mem_iff, List.mem_range]

theorem StateWF.length_add {P : GLISTERInputs α} {st : SelState α} (h : StateWF P st) :
    st.greedySet.length + st.remainSet.length = P.N_trn := by
  have := h.part.length_eq
  simpa using this

theorem StateWF.initState (P : GLISTERInputs α) : StateWF P (initState P) := by
  refine ⟨by simp [GLISTER.initState], by simp [GLISTER.initState], ?_, ?_, ?_, ?_⟩ <;>
    simp [GLISTER.initState]

theorem commitOne_WF (P : GLISTERInputs α) (hrows : RowsLen P) {st : SelState α}
    (hwf : StateWF P st) {b : ℕ} (hb : b ∈ st.remainSet) :
    StateWF P (commitOne P st b) := by
  obtain ⟨hg, hr, hn, hx, ha, hc⟩ := commitOne_fields P st b
  have hbg : b ∉ st.greedySet := fun hmem => hwf.disjoint hmem hb
  have halias_ne : st.currXAlias ≠ some b := fun he => hbg (hwf.alias_mem b he)
  have hcb : st.cache b = P.grads_per_elem b := hwf.cache_pristine b halias_ne
  constructor
  · -- partition
    rw [hg, hr, List.append_assoc]
    have h1 : ([b] ++ st.remainSet.erase b).Perm st.remainSet :=
      (List.perm_cons_erase hb).symm
    exact (List.Perm.append_left st.greedySet h1).trans hwf.part
  · rw [hn, hg]; simp
  · -- alias_mem
    intro a hae
    rw [ha] at hae
    rw [hg]
    by_cases hpos : 0 < st.numSelected
    · rw [if_pos hpos] at hae
      exact List.mem_append_left _ (hwf.alias_mem a hae)
    · rw [if_neg hpos] at hae
      simp at hae
      simp [hae]
  · -- cache_alias
    intro i hae
    rw [ha] at hae
    by_cases hpos : 0 < st.numSelected
    · rw [if_pos hpos] at hae
      simp only [hc, hx]
      rw [if_pos (And.intro hpos hae), if_pos hpos]
    · rw [if_neg hpos] at hae
      have hbi : b = i := by simpa using hae
      subst hbi
      simp only [hc, hx]
      rw [if_neg (by simp [hpos]), if_neg hpos]
  · -- cache_pristine
    intro i hne
    rw [ha] at hne
    by_cases hpos : 0 < st.numSelected
    · rw [if_pos hpos] at hne
      simp only [hc]
      rw [if_neg (by simp [hne])]
      exact hwf.cache_pristine i hne
    · rw [if_neg hpos] at hne
      have hge : st.greedySet = [] := by
        by_contra hgne
        exact hpos (hwf.pos_iff.mpr hgne)
      have hal : st.currXAlias = none := by
        cases hopt : st.currXAlias with
        | none => rfl
        | some a => exact absurd (hwf.alias_mem a hopt) (by simp [hge])
      simp only [hc]
      rw [if_neg (by simp [hpos])]
      exact hwf.cache_pristine i (by simp [hal])
  · -- sum_eq
    intro _
    rw [hx, hg]
    by_cases hpos : 0 < st.numSelected
    · rw [if_pos hpos]
      have hgne : st.greedySet ≠ [] := hwf.pos_iff.mp hpos
      rw [hwf.sum_eq hgne, hcb, List.map_append, List.map_singleton,
        vecSum_append_single]
    · rw [if_neg hpos]
      have hge : st.greedySet = [] := by
        by_contra hne
        exact hpos (hwf.pos_iff.mpr hne)
      rw [hge, hcb]
      simp [vecSum_single (hrows b)]

theorem naiveStep_WF (P : GLISTERInputs α) (hrows : RowsLen P) {st st' : SelState α}
    (hwf : StateWF P st) (h : naiveStep P st = some st') :
    StateWF P st' ∧
    ∃ b ∈ st.remainSet,
      (∀ x ∈ st.remainSet, score st x ≤ score st b) ∧
      st'.greedySet = st.greedySet ++ [b] ∧
      st'.remainSet = st.remainSet.erase b ∧
      st'.numSelected = st.numSelected + 1 := by
  obtain ⟨hne, rfl⟩ := naiveStep_fields P h
  obtain ⟨hmem, hmax⟩ := argmax_elem st st.remainSet hne
  obtain ⟨hg, hr, hn, _, _, _⟩ := commitOne_fields P st (bestFrom st st.remainSet)
  exact ⟨commitOne_WF P hrows hwf hmem, bestFrom st st.remainSet, hmem, hmax, hg, hr, hn⟩

theorem stochStep_WF (P : GLISTERInputs α) (hrows : RowsLen P)
    {pick : ℕ → List ℕ → ℕ → List ℕ} (hpick : ValidSampler pick) {ss : ℕ}
    {st st' : SelState α} (hwf : StateWF P st) (h : stochStep P pick ss st = some st') :
    StateWF P st' ∧
    ∃ b ∈ pick st.numSelected st.remainSet ss,
      b ∈ st.remainSet ∧
      (∀ x ∈ pick st.numSelected st.remainSet ss, score st x ≤ score st b) ∧
      st'.greedySet = st.greedySet ++ [b] ∧
      st'.remainSet = st.remainSet.erase b ∧
      st'.numSelected = st.numSelected + 1 ∧
      (pick st.numSelected st.remainSet ss).length = ss := by
  obtain ⟨hss, hsne, rfl⟩ := stochStep_fields P h
  obtain ⟨hlen, hsub, _⟩ := hpick st.numSelected st.remainSet ss hss
  obtain ⟨hmem, hmax⟩ := argmax_elem st _ hsne
  have hbr : bestFrom st (pick st.numSelected st.remainSet ss) ∈ st.remainSet := hsub _ hmem
  obtain ⟨hg, hr, hn, _, _, _⟩ :=
    commitOne_fields P st (bestFrom st (pick st.numSelected st.remainSet ss))
  exact ⟨commitOne_WF P hrows hwf hbr, _, hmem, hbr, hmax, hg, hr, hn, hlen⟩

theorem rgreedySelected_spec (s : ℕ) (st : SelState α) (hnd : st.remainSet.Nodup) :
    (∀ x ∈ rgreedySelected s st, x ∈ st.remainSet) ∧
    (rgreedySelected s st).Nodup ∧
    (rgreedySelected s st).length = min s st.remainSet.length ∧
    (rgreedySelected s st).Pairwise (fun x y => score st y ≤ score st x) ∧
    (∀ x ∈ rgreedySelected s st, ∀ y ∈ st.remainSet, y ∉ rgreedySelected s st →
      score st y ≤ score st x) := by
  have hglen : (eval_taylor_modular st st.remainSet).length = st.remainSet.length := by
    simp [eval_taylor_modular]
  have hSlen : (sortIdxDesc (eval_taylor_modular st st.remainSet)).length =
      st.remainSet.length := by
    rw [(sortIdxDesc_perm _).length_eq, List.length_range, hglen]
  have hTmem : ∀ k ∈ (sortIdxDesc (eval_taylor_modular st st.remainSet)).take s,
      k < st.remainSet.length := by
    intro k hk
    have := sortIdxDesc_mem_lt _ (List.take_subset _ _ hk)
    omega
  have hscore : ∀ k, k < st.remainSet.length →
      (eval_taylor_modular st st.remainSet).getD k 0 = score st (st.remainSet.getD k 0) := by
    intro k hk
    rw [eval_taylor_modular_eq_map]
    exact getD_map_score st st.remainSet k hk
  have hrel : ∀ k l, k < st.remainSet.length → l < st.remainSet.length →
      gainOrder (eval_taylor_modular st st.remainSet) k l →
      score st (st.remainSet.getD l 0) ≤ score st (st.remainSet.getD k 0) := by
    intro k l hk hl hko
    rw [← hscore k hk, ← hscore l hl]
    rcases hko with h | ⟨h, _⟩
    · exact le_of_lt h
    · exact le_of_eq h.symm
  refine ⟨?_, ?_, ?_, ?_, ?_⟩
  · intro x hx
    obtain ⟨k, hk, rfl⟩ := List.mem_map.mp hx
    have hklt := hTmem k hk
    rw [List.getD_eq_getElem _ 0 hklt]
    exact List.getElem_mem hklt
  · refine List.Nodup.map_on ?_ ?_
    · intro k hk l hl he
      have hklt := hTmem k hk
      have hllt := hTmem l hl
      rw [List.getD_eq_getElem _ 0 hklt, List.getD_eq_getElem _ 0 hllt] at he
      exact hnd.getElem_inj_iff.mp he
    · exact (sortIdxDesc_nodup _).sublist (List.take_sublist _ _)
  · unfold rgreedySelected
    rw [List.length_map, List.length_take, hSlen]
  · unfold rgreedySelected
    rw [List.pairwise_map]
    have hT : ((sortIdxDesc (eval_taylor_modular st st.remainSet)).take s).Pairwise
        (gainOrder (eval_taylor_modular st st.remainSet)) :=
      (sortIdxDesc_sorted _).sublist (List.take_sublist _ _)
    refine List.Pairwise.imp_of_mem ?_ hT
    intro k l hk hl hko
    exact hrel k l (hTmem k hk) (hTmem l hl) hko
  · intro x hx y hy hyn
    obtain ⟨k, hk, rfl⟩ := List.mem_map.mp hx
    obtain ⟨j, hjlt, rfl⟩ := List.getElem_of_mem hy
    have hjS : j ∈ sortIdxDesc (eval_taylor_modular st st.remainSet) := by
      rw [(sortIdxDesc_perm _).mem_iff, List.mem_range, hglen]
      exact hjlt
    rw [← List.take_append_drop s (sortIdxDesc (eval_taylor_modular st st.remainSet)),
      List.mem_append] at hjS
    rcases hjS with hjT | hjD
    · exfalso
      apply hyn
      refine List.mem_map.mpr ⟨j, hjT, ?_⟩
      rw [List.getD_eq_getElem _ 0 hjlt]
    · have hsorted := sortIdxDesc_sorted (eval_taylor_modular st st.remainSet)
      rw [List.Sorted, ← List.take_append_drop s
        (sortIdxDesc (eval_taylor_modular st st.remainSet))] at hsorted
      have hko := (List.pairwise_append.mp hsorted).2.2 k hk j hjD
      have := hrel k j (hTmem k hk) hjlt hko
      rwa [List.getD_eq_getElem _ 0 hjlt] at this

theorem rgreedyStep_WF (P : GLISTERInputs α) (hrows : RowsLen P) (hN : 0 < P.N_trn)
    (s : ℕ) {st : SelState α} (hwf : StateWF P st) :
    StateWF P (rgreedyStep P s st) := by
  obtain ⟨hg, hr, hn, hx, ha, hc⟩ := rgreedyStep_fields P s st
  obtain ⟨hsub, hselnd, hlen, _, _⟩ := rgreedySelected_spec s st hwf.remain_nodup
  have hselg : ∀ x ∈ rgreedySelected s st, x ∉ st.greedySet := by
    intro x hx hmem
    exact hwf.disjoint hmem (hsub x hx)
  have hmapsel : (rgreedySelected s st).map st.cache =
      (rgreedySelected s st).map P.grads_per_elem := by
    refine List.map_congr_left ?_
    intro x hx
    refine hwf.cache_pristine x ?_
    intro hax
    exact hselg x hx (hwf.alias_mem x hax)
  constructor
  · -- partition
    rw [hg, hr, List.append_assoc]
    exact (List.Perm.append_left st.greedySet (perm_erase_foldl hselnd hsub)).trans hwf.part
  · -- pos_iff
    rw [hn, hg]
    constructor
    · intro hpos'
      by_cases hpos : 0 < st.numSelected
      · have hgne := hwf.pos_iff.mp hpos
        intro habs
        rw [List.append_eq_nil] at habs
        exact hgne habs.1
      · have hs : 0 < s := by omega
        intro habs
        rw [List.append_eq_nil] at habs
        have h0 : (rgreedySelected s st).length = 0 := by rw [habs.2]; rfl
        rw [hlen] at h0
        have hr0 : st.remainSet.length = 0 := by omega
        have := hwf.length_add
        have hg0 : st.greedySet.length = 0 := by rw [habs.1]; rfl
        omega
    · intro hgs
      by_cases hge : st.greedySet = []
      · have hsne : rgreedySelected s st ≠ [] := by
          intro habs
          exact hgs (by rw [hge, habs]; rfl)
        have : 0 < (rgreedySelected s st).length := List.length_pos.mpr hsne
        rw [hlen] at this
        omega
      · have := hwf.pos_iff.mpr hge
        omega
  · -- alias_mem
    intro a hae
    rw [ha] at hae
    by_cases hpos : 0 < st.numSelected
    · rw [if_pos hpos] at hae
      rw [hg]
      exact List.mem_append_left _ (hwf.alias_mem a hae)
    · rw [if_neg hpos] at hae
      cases hae
  · -- cache_alias
    intro i hae
    rw [ha] at hae
    by_cases hpos : 0 < st.numSelected
    · rw [if_pos hpos] at hae
      simp only [hc, hx]
      rw [if_pos (And.intro hpos hae), if_pos hpos]
    · rw [if_neg hpos] at hae
      cases hae
  · -- cache_pristine
    intro i hne
    rw [ha] at hne
    by_cases hpos : 0 < st.numSelected
    · rw [if_pos hpos] at hne
      simp only [hc]
      rw [if_neg (by simp [hne])]
      exact hwf.cache_pristine i hne
    · have hge : st.greedySet = [] := by
        by_contra hgne
        exact hpos (hwf.pos_iff.mpr hgne)
      have hal : st.currXAlias = none := by
        cases hopt : st.currXAlias with
        | none => rfl
        | some a => exact absurd (hwf.alias_mem a hopt) (by simp [hge])
      simp only [hc]
      rw [if_neg (by simp [hpos])]
      exact hwf.cache_pristine i (by simp [hal])
  · -- sum_eq
    intro _
    rw [hx, hg]
    have hlens : ∀ v ∈ (rgreedySelected s st).map P.grads_per_elem, v.length = P.D := by
      intro v hv
      obtain ⟨x, _, rfl⟩ := List.mem_map.mp hv
      exact hrows x
    by_cases hpos : 0 < st.numSelected
    · rw [if_pos hpos, hmapsel, hwf.sum_eq (hwf.pos_iff.mp hpos), List.map_append]
      have hleng : ∀ v ∈ st.greedySet.map P.grads_per_elem, v.length = P.D := by
        intro v hv
        obtain ⟨x, _, rfl⟩ := List.mem_map.mp hv
        exact hrows x
      rw [vecSum_add _ _ hleng hlens]
    · rw [if_neg hpos, hmapsel]
      have hge : st.greedySet = [] := by
        by_contra hgne
        exact hpos (hwf.pos_iff.mpr hgne)
      rw [hge]
      simp

/-! ### Running the loops -/

theorem naiveStep_succeeds (P : GLISTERInputs α) {st : SelState α} (hne : st.remainSet ≠ []) :
    naiveStep P st = some (commitOne P st (bestFrom st st.remainSet)) := by
  unfold naiveStep
  rw [if_neg (by simpa [List.isEmpty_iff] using hne)]

theorem naiveLoop_run (P : GLISTERInputs α) (hrows : RowsLen P) (budget : ℕ) :
    ∀ (fuel : ℕ) (st : SelState α), StateWF P st →
    budget ≤ st.numSelected + fuel →
    budget ≤ st.numSelected + st.remainSet.length →
    ∃ st', naiveLoop P budget fuel st = some st' ∧ StateWF P st' ∧
      st'.numSelected = max st.numSelected budget ∧
      st'.greedySet.length = st.greedySet.length + (budget - st.numSelected) ∧
      ∃ l, st'.greedySet = st.greedySet ++ l := by
  intro fuel
  induction fuel with
  | zero =>
    intro st hwf h1 h2
    have hge : ¬ st.numSelected < budget := by omega
    exact ⟨st, by simp [naiveLoop, hge], hwf, by omega, by omega, [], by simp⟩
  | succ fuel ih =>
    intro st hwf h1 h2
    by_cases hlt : st.numSelected < budget
    · have hne : st.remainSet ≠ [] := by
        intro he
        rw [he] at h2
        simp at h2
        omega
      have hrpos : 0 < st.remainSet.length := List.length_pos.mpr hne
      have hstep := naiveStep_succeeds P hne
      obtain ⟨hwf₁, b, hbmem, _, hg, hr, hn⟩ := naiveStep_WF P hrows hwf hstep
      have hglen : (commitOne P st (bestFrom st st.remainSet)).greedySet.length =
          st.greedySet.length + 1 := by rw [hg]; simp
      have hrlen : (commitOne P st (bestFrom st st.remainSet)).remainSet.length =
          st.remainSet.length - 1 := by rw [hr]; exact List.length_erase_of_mem hbmem
      obtain ⟨st', hloop, hwf', hnum, hglen', l, hgapp⟩ :=
        ih _ hwf₁ (by omega) (by omega)
      refine ⟨st', ?_, hwf', by omega, by omega, [b] ++ l, ?_⟩
      · simp [naiveLoop, hlt, hstep, hloop]
      · rw [hgapp, hg, List.append_assoc]
    · exact ⟨st, by simp [naiveLoop, hlt], hwf, by omega, by omega, [], by simp⟩

theorem stochStep_succeeds (P : GLISTERInputs α) {pick : ℕ → List ℕ → ℕ → List ℕ}
    (hpick : ValidSampler pick) {ss : ℕ} {st : SelState α} (hss1 : 1 ≤ ss)
    (hss : ss ≤ st.remainSet.length) :
    stochStep P pick ss st =
      some (commitOne P st (bestFrom st (pick st.numSelected st.remainSet ss))) := by
  have hlen := (hpick st.numSelected st.remainSet ss hss).1
  have hne : ¬ (pick st.numSelected st.remainSet ss).isEmpty = true := by
    rw [List.isEmpty_iff]
    intro habs
    rw [habs] at hlen
    simp at hlen
    omega
  unfold stochStep
  rw [if_pos hss]
  simp only [hne]
  rw [if_neg (by simp [hne])]

theorem stochLoop_run (P : GLISTERInputs α) (hrows : RowsLen P)
    {pick : ℕ → List ℕ → ℕ → List ℕ} (hpick : ValidSampler pick) (ss budget : ℕ)
    (hss1 : 1 ≤ ss) (hssN : ss + budget ≤ P.N_trn + 1) :
    ∀ (fuel : ℕ) (st : SelState α), StateWF P st →
    st.greedySet.length = st.numSelected →
    budget ≤ st.numSelected + fuel →
    ∃ st', stochLoop P pick ss budget fuel st = some st' ∧ StateWF P st' ∧
      st'.numSelected = max st.numSelected budget ∧
      st'.greedySet.length = st.greedySet.length + (budget - st.numSelected) ∧
      ∃ l, st'.greedySet = st.greedySet ++ l := by
  intro fuel
  induction fuel with
  | zero =>
    intro st hwf hcount h1
    have hge : ¬ st.numSelected < budget := by omega
    exact ⟨st, by simp [stochLoop, hge], hwf, by omega, by omega, [], by simp⟩
  | succ fuel ih =>
    intro st hwf hcount h1
    by_cases hlt : st.numSelected < budget
    · have hNlen := hwf.length_add
      have hss : ss ≤ st.remainSet.length := by omega
      have hstep := stochStep_succeeds P hpick hss1 hss
      obtain ⟨hwf₁, b, _, hbr, _, hg, hr, hn, _⟩ := stochStep_WF P hrows hpick hwf hstep
      have hglen : (commitOne P st (bestFrom st (pick st.numSelected st.remainSet ss))).greedySet.length =
          st.greedySet.length + 1 := by rw [hg]; simp
      obtain ⟨st', hloop, hwf', hnum, hglen', l, hgapp⟩ :=
        ih _ hwf₁ (by omega) (by omega)
      refine ⟨st', ?_, hwf', by omega, by omega, [b] ++ l, ?_⟩
      · simp [stochLoop, hlt, hstep, hloop]
      · rw [hgapp, hg, List.append_assoc]
    · exact ⟨st, by simp [stochLoop, hlt], hwf, by omega, by omega, [], by simp⟩

theorem rgreedyLoop_run (P : GLISTERInputs α) (hrows : RowsLen P) (hN : 0 < P.N_trn)
    (s budget : ℕ) (hs : 0 < s) :
    ∀ (fuel : ℕ) (st : SelState α), StateWF P st →
    st.greedySet.length = min st.numSelected P.N_trn →
    budget ≤ st.numSelected + fuel * s →
    ∃ st' k, rgreedyLoop P s budget fuel st = some st' ∧ StateWF P st' ∧
      st'.numSelected = st.numSelected + k * s ∧
      st'.greedySet.length = min st'.numSelected P.N_trn ∧
      budget ≤ st'.numSelected ∧ (k = 0 ∨ st'.numSelected - s < budget) ∧
      ∃ l, st'.greedySet = st.greedySet ++ l := by
  intro fuel
  induction fuel with
  | zero =>
    intro st hwf hmin h1
    have hge : ¬ st.numSelected < budget := by simp at h1; omega
    exact ⟨st, 0, by simp [rgreedyLoop, hge], hwf, by omega, hmin, by omega,
      Or.inl rfl, [], by simp⟩
  | succ fuel ih =>
    intro st hwf hmin h1
    by_cases hlt : st.numSelected < budget
    · have hNlen := hwf.length_add
      obtain ⟨hg, hr, hn, _, _, _⟩ := rgreedyStep_fields P s st
      obtain ⟨hsub, hselnd, hlen, _, _⟩ := rgreedySelected_spec s st hwf.remain_nodup
      have hwf₁ := rgreedyStep_WF P hrows hN s hwf
      have hglen : (rgreedyStep P s st).greedySet.length =
          st.greedySet.length + min s st.remainSet.length := by
        rw [hg]; simp [hlen]
      have hfs : (fuel + 1) * s = fuel * s + s := by ring
      obtain ⟨st', k, hloop, hwf', hnum, hmin', hle, hlast, l, hgapp⟩ :=
        ih _ hwf₁ (by omega) (by omega)
      have hks : (k + 1) * s = k * s + s := by ring
      refine ⟨st', k + 1, ?_, hwf', by omega, hmin', hle, ?_, rgreedySelected s st ++ l, ?_⟩
      · simp [rgreedyLoop, hlt, hloop]
      · rcases hlast with hk0 | hlt'
        · subst hk0
          refine Or.inr ?_
          omega
        · exact Or.inr hlt'
      · rw [hgapp, hg, List.append_assoc]
    · exact ⟨st, 0, by simp [rgreedyLoop, hlt], hwf, by omega, hmin, by omega,
        Or.inl rfl, [], by simp⟩

/-- With `selection_size = 0` (which happens exactly when `0 < budget < r`),
an RGreedy iteration never changes `greedySet`, `remainSet` or `numSelected`,
so the loop never terminates: it yields `none` for every fuel value. -/
theorem rgreedyLoop_zero (P : GLISTERInputs α) (budget : ℕ) :
    ∀ (fuel : ℕ) (st : SelState α), st.numSelected < budget →
    rgreedyLoop P 0 budget fuel st = none := by
  intro fuel
  induction fuel with
  | zero => intro st hlt; simp [rgreedyLoop, hlt]
  | succ fuel ih =>
    intro st hlt
    obtain ⟨hg, hr, hn, _, _, _⟩ := rgreedyStep_fields P 0 st
    have hn' : (rgreedyStep P 0 st).numSelected = st.numSelected := by omega
    simp only [rgreedyLoop, if_pos hlt]
    exact ih _ (by omega)

/-- With `budget` exceeding what the remaining pool can supply, the Naive loop
eventually calls `torch.argmax` on an empty tensor, for any fuel: the call
raises rather than returning. -/
theorem naiveLoop_overrun (P : GLISTERInputs α) (budget : ℕ) :
    ∀ (fuel : ℕ) (st : SelState α),
    st.numSelected + st.remainSet.length < budget →
    naiveLoop P budget fuel st = none := by
  intro fuel
  induction fuel with
  | zero => intro st h; simp [naiveLoop]; omega
  | succ fuel ih =>
    intro st h
    have hlt : st.numSelected < budget := by omega
    simp only [naiveLoop, if_pos hlt]
    by_cases hne : st.remainSet = []
    · unfold naiveStep
      rw [if_pos (by simp [hne])]
      rfl
    · have hstep := naiveStep_succeeds P hne
      rw [hstep]
      show naiveLoop P budget fuel (commitOne P st (bestFrom st st.remainSet)) = none
      obtain ⟨hbmem, _⟩ := argmax_elem st st.remainSet hne
      obtain ⟨hg, hr, hn, _, _, _⟩ := commitOne_fields P st (bestFrom st st.remainSet)
      have hrlen : (commitOne P st (bestFrom st st.remainSet)).remainSet.length =
          st.remainSet.length - 1 := by rw [hr]; exact List.length_erase_of_mem hbmem
      have hrpos : 0 < st.remainSet.length := List.length_pos.mpr hne
      exact ih _ (by omega)

/-! ### Unfolding `select` by branch -/

theorem select_naive_eq (P : GLISTERInputs α) (r : ℕ) (pick : ℕ → List ℕ → ℕ → List ℕ)
    (budget fuel : ℕ) :
    select P "Naive" r pick budget fuel =
      (naiveLoop P budget fuel (initState P)).map
        fun st => (st.greedySet, List.replicate budget 1) := rfl

theorem select_rgreedy_eq (P : GLISTERInputs α) {r : ℕ} (hr : r ≠ 0)
    (pick : ℕ → List ℕ → ℕ → List ℕ) (budget fuel : ℕ) :
    select P "RGreedy" r pick budget fuel =
      (rgreedyLoop P (budget / r) budget fuel (initState P)).map
        fun st => (st.greedySet, List.replicate budget 1) := by
  unfold select
  rw [if_pos rfl, if_neg hr]

theorem select_stoch_eq (P : GLISTERInputs α) (r : ℕ) (pick : ℕ → List ℕ → ℕ → List ℕ)
    {budget : ℕ} (hb : budget ≠ 0) (fuel : ℕ) :
    select P "Stochastic" r pick budget fuel =
      (stochLoop P pick (subset_size P.N_trn budget).toNat budget fuel (initState P)).map
        fun st => (st.greedySet, List.replicate budget 1) := by
  unfold select
  rw [if_neg (by decide), if_pos rfl, if_neg hb]

/-! ### Numeric bounds for `math.log(100)` and the stochastic sample size -/

theorem exp_nine_lt : Real.exp 9 < 10000 := by
  have h1 : Real.exp 9 = Real.exp 1 ^ 9 := by
    rw [← Real.exp_nat_mul]
    norm_num
  have h2 : Real.exp 1 ^ 9 < 2.7182818286 ^ 9 := by
    refine pow_lt_pow_left₀ Real.exp_one_lt_d9 (le_of_lt (Real.exp_pos 1)) (by norm_num)
  have h3 : (2.7182818286 : ℝ) ^ 9 < 10000 := by norm_num
  linarith [h1 ▸ h2]

theorem exp_ten_gt : (20000 : ℝ) < Real.exp 10 := by
  have h1 : Real.exp 10 = Real.exp 1 ^ 10 := by
    rw [← Real.exp_nat_mul]
    norm_num
  have h2 : (2.7182818283 : ℝ) ^ 10 < Real.exp 1 ^ 10 := by
    refine pow_lt_pow_left₀ Real.exp_one_gt_d9 (by norm_num) (by norm_num)
  have h3 : (20000 : ℝ) < 2.7182818283 ^ 10 := by norm_num
  linarith [h1 ▸ h2]

theorem exp_twentyfour_gt : (10 : ℝ) ^ 10 < Real.exp 24 := by
  have h1 : Real.exp 24 = Real.exp 1 ^ 24 := by
    rw [← Real.exp_nat_mul]
    norm_num
  have h2 : (2.7182818283 : ℝ) ^ 24 < Real.exp 1 ^ 24 := by
    refine pow_lt_pow_left₀ Real.exp_one_gt_d9 (by norm_num) (by norm_num)
  have h3 : (10 : ℝ) ^ 10 < 2.7182818283 ^ 24 := by norm_num
  linarith [h1 ▸ h2]

theorem log100_ge : (4.5 : ℝ) ≤ Real.log 100 := by
  rw [Real.le_log_iff_exp_le (by norm_num : (0:ℝ) < 100)]
  have hmul : Real.exp 4.5 * Real.exp 4.5 = Real.exp 9 := by
    rw [← Real.exp_add]
    norm_num
  nlinarith [exp_nine_lt, Real.exp_pos (4.5 : ℝ), hmul]

theorem log100_lt_48 : Real.log 100 < 4.8 := by
  rw [Real.log_lt_iff_lt_exp (by norm_num : (0:ℝ) < 100)]
  by_contra hcon
  push_neg at hcon
  have h5 : Real.exp 4.8 ^ 5 ≤ 100 ^ 5 :=
    pow_le_pow_left₀ (le_of_lt (Real.exp_pos _)) hcon 5
  have he : Real.exp 4.8 ^ 5 = Real.exp 24 := by
    rw [← Real.exp_nat_mul]
    norm_num
  rw [he] at h5
  have := exp_twentyfour_gt
  norm_num at h5 this
  linarith

theorem log100_lt_5 : Real.log 100 < 5 := by
  rw [Real.log_lt_iff_lt_exp (by norm_num : (0:ℝ) < 100)]
  by_contra hcon
  push_neg at hcon
  have h2 : Real.exp 5 ^ 2 ≤ 100 ^ 2 :=
    pow_le_pow_left₀ (le_of_lt (Real.exp_pos _)) hcon 2
  have he : Real.exp 5 ^ 2 = Real.exp 10 := by
    rw [← Real.exp_nat_mul]
    norm_num
  rw [he] at h2
  have := exp_ten_gt
  norm_num at h2 this
  linarith

/-- When the pool is exactly twice the budget, the source's
`int((N / budget) * math.log(100))` is `9` (since `9 ≤ 2·ln 100 < 10`). -/
theorem subset_size_ratio_two {N b : ℕ} (h : ((N : ℝ) / (b : ℝ)) = 2) :
    subset_size N b = 9 := by
  unfold subset_size
  rw [h, Int.floor_eq_iff]
  constructor
  · push_cast
    nlinarith [log100_ge]
  · push_cast
    nlinarith [log100_lt_5]

theorem subset_size_10_6 : subset_size 10 6 = 7 := by
  unfold subset_size
  have h : ((10 : ℕ) : ℝ) / ((6 : ℕ) : ℝ) = 5 / 3 := by norm_num
  rw [h, Int.floor_eq_iff]
  constructor
  · push_cast
    nlinarith [log100_ge]
  · push_cast
    nlinarith [log100_lt_48]

theorem subset_size_rounded_10_6 : subset_size_rounded 10 6 = 8 := by
  unfold subset_size_rounded
  have h : ((10 : ℕ) : ℝ) / ((6 : ℕ) : ℝ) = 5 / 3 := by norm_num
  rw [h, round_eq, Int.floor_eq_iff]
  constructor
  · push_cast
    nlinarith [log100_ge]
  · push_cast
    nlinarith [log100_lt_48]

/-! ### Concrete inputs for witnesses and counterexamples -/

/-- A concrete input family over `ℤ`: pool of `n` elements, gradient dimension
`1`, element `i` has gradient row `[i + 1]` (so scores are strictly increasing
in the element index when the validation gradient is `[1]`), and the
validation-gradient update is abstracted as the identity. -/
def Pw (n : ℕ) : GLISTERInputs ℤ :=
  { N_trn := n, D := 1, grads_per_elem := fun i => [(i : ℤ) + 1],
    grads_val_first := [1], upd_grads_val := id }

theorem Pw_rows (n : ℕ) : RowsLen (Pw n) := fun _ => rfl

/-! ### Claim theorems -/

/-- **C8** (confirmed).  `select` under the Naive strategy is deterministic:
its result does not depend on the process randomness source (`pick`, the model
of `np.random`) nor on the RGreedy chunk parameter `r`; two runs with the same
inputs (`P` packages the gradient cache computed from the model parameters and
the pool, and the validation-gradient function), the same budget and the same
fuel return the same ordered index sequence. -/
theorem C8_naive_deterministic (P : GLISTERInputs α) (r₁ r₂ : ℕ)
    (pick₁ pick₂ : ℕ → List ℕ → ℕ → List ℕ) (budget fuel : ℕ) :
    select P "Naive" r₁ pick₁ budget fuel = select P "Naive" r₂ pick₂ budget fuel := rfl

/-- **C9** (corrected).  With `budget = 0` the Naive and RGreedy branches run
zero iterations and return `([], [])` (the weight tensor `torch.ones(0)` is
empty), but the Stochastic branch raises `ZeroDivisionError` computing
`subset_size = int((N / budget) * math.log(100))` before its loop. -/
theorem C9_budget_zero (P : GLISTERInputs α) {r : ℕ} (hr : r ≠ 0)
    (pick : ℕ → List ℕ → ℕ → List ℕ) (fuel : ℕ) :
    select P "Naive" r pick 0 fuel = some ([], []) ∧
    select P "RGreedy" r pick 0 fuel = some ([], []) ∧
    select P "Stochastic" r pick 0 fuel = none := by
  refine ⟨?_, ?_, ?_⟩
  · rw [select_naive_eq]
    cases fuel <;> simp [naiveLoop, initState]
  · rw [select_rgreedy_eq P hr]
    cases fuel <;> simp [rgreedyLoop, initState]
  · unfold select
    rw [if_neg (by decide), if_pos rfl, if_pos rfl]

/-- Witness for C9 at a concrete input. -/
theorem C9_witness :
    select (Pw 3) "Naive" 15 takePick 0 7 = some ([], []) ∧
    select (Pw 3) "RGreedy" 15 takePick 0 7 = some ([], []) ∧
    select (Pw 3) "Stochastic" 15 takePick 0 7 = none :=
  C9_budget_zero (Pw 3) (by decide) takePick 7

/-- Counterexample to C9 as stated: with `budget = 0` the Stochastic strategy
does not return `([], [])`; it fails (division by zero at source line 231). -/
theorem C9_counterexample :
    select (Pw 3) "Stochastic" 15 takePick 0 7 = none ∧
    (none : Option (List ℕ × List ℤ)) ≠ some ([], []) := by
  constructor
  · rfl
  · decide

/-- **C10** (confirmed).  For `0 < budget < r`, `selection_size = int(budget /
r)` is `0`, an RGreedy iteration commits nothing and leaves `greedySet`,
`remainSet` and `numSelected` unchanged, so the loop guard `numSelected <
budget` never becomes false: `select` diverges (is `none` for every fuel). -/
theorem C10_rgreedy_diverges (P : GLISTERInputs α) (r : ℕ)
    (pick : ℕ → List ℕ → ℕ → List ℕ) (budget : ℕ) (h1 : 0 < budget) (h2 : budget < r)
    (fuel : ℕ) (st : SelState α) :
    budget / r = 0 ∧
    select P "RGreedy" r pick budget fuel = none ∧
    (rgreedyStep P (budget / r) st).greedySet = st.greedySet ∧
    (rgreedyStep P (budget / r) st).remainSet = st.remainSet ∧
    (rgreedyStep P (budget / r) st).numSelected = st.numSelected := by
  have hdiv : budget / r = 0 := Nat.div_eq_of_lt h2
  have hsel0 : rgreedySelected 0 st = [] := by
    unfold rgreedySelected
    simp
  obtain ⟨hg, hrm, hn, _, _, _⟩ := rgreedyStep_fields P (budget / r) st
  rw [hdiv] at hg hrm hn
  refine ⟨hdiv, ?_, ?_, ?_, ?_⟩
  · rw [select_rgreedy_eq P (by omega : r ≠ 0), hdiv,
      rgreedyLoop_zero P budget fuel (initState P) (by simp [initState]; omega)]
    rfl
  · rw [hdiv, hg, hsel0]
    simp
  · rw [hdiv, hrm, hsel0]
    rfl
  · rw [hdiv, hn]
    omega

/-- Witness for C10 at a concrete input. -/
theorem C10_witness :
    1 / 15 = 0 ∧
    select (Pw 3) "RGreedy" 15 takePick 1 5 = none ∧
    (rgreedyStep (Pw 3) (1 / 15) (initState (Pw 3))).greedySet = (initState (Pw 3)).greedySet ∧
    (rgreedyStep (Pw 3) (1 / 15) (initState (Pw 3))).remainSet = (initState (Pw 3)).remainSet ∧
    (rgreedyStep (Pw 3) (1 / 15) (initState (Pw 3))).numSelected =
      (initState (Pw 3)).numSelected :=
  C10_rgreedy_diverges (Pw 3) 15 takePick 1 (by decide) (by decide) 5 (initState (Pw 3))

/-- **C6** (corrected).  `select` performs no configuration validation: an
unrecognized strategy string matches no branch and `select` returns
`([], torch.ones(budget))` without error; and an over-budget call
(`budget > N`, Naive) fails only inside the selection loop (argmax over an
empty candidate tensor), not up front — gradient computation (source line 188)
has already run unconditionally by then. -/
theorem C6_no_validation (P : GLISTERInputs α) (r : ℕ)
    (pick : ℕ → List ℕ → ℕ → List ℕ) (budget fuel : ℕ) (sel_type : String)
    (hsel : sel_type ≠ "RGreedy" ∧ sel_type ≠ "Stochastic" ∧ sel_type ≠ "Naive") :
    select P sel_type r pick budget fuel = some ([], List.replicate budget 1) ∧
    (P.N_trn < budget → select P "Naive" r pick budget fuel = none) := by
  constructor
  · unfold select
    rw [if_neg hsel.1, if_neg hsel.2.1, if_neg hsel.2.2]
  · intro hbig
    rw [select_naive_eq,
      naiveLoop_overrun P budget fuel (initState P) (by simp [initState]; omega)]
    rfl

/-- Witness for C6 at a concrete input. -/
theorem C6_witness :
    select (Pw 3) "Greedy" 15 takePick 5 9 = some ([], List.replicate 5 1) ∧
    select (Pw 3) "Naive" 15 takePick 5 9 = none := by
  have h := C6_no_validation (Pw 3) 15 takePick 5 9 "Greedy"
    (by refine ⟨?_, ?_, ?_⟩ <;> decide)
  exact ⟨h.1, h.2 (by decide)⟩

/-- Counterexample to C6 as stated: an unrecognized strategy value does not
cause `select` to fail; the call succeeds and returns the empty selection with
a ones-weight vector of length `budget`. -/
theorem C6_counterexample :
    select (Pw 3) "Greedy" 15 takePick 3 0 = some ([], [1, 1, 1]) := rfl

/-- **C5** (confirmed).  The initial state satisfies the partition invariant,
each strategy's iteration preserves it and only ever appends to the selected
list (never removes), and the invariant entails the claim: `greedySet` and
`remainSet` are disjoint, together exhaust `[0, N)`, and `greedySet` (the
returned `selected_indices`) contains each index at most once. -/
theorem C5_partition_invariant (P : GLISTERInputs α) (hrows : RowsLen P)
    (hN : 0 < P.N_trn) {pick : ℕ → List ℕ → ℕ → List ℕ} (hpick : ValidSampler pick)
    (ss s : ℕ) :
    StateWF P (initState P) ∧
    (∀ st st' : SelState α, StateWF P st → naiveStep P st = some st' →
      StateWF P st' ∧ ∃ l, st'.greedySet = st.greedySet ++ l) ∧
    (∀ st st' : SelState α, StateWF P st → stochStep P pick ss st = some st' →
      StateWF P st' ∧ ∃ l, st'.greedySet = st.greedySet ++ l) ∧
    (∀ st : SelState α, StateWF P st →
      StateWF P (rgreedyStep P s st) ∧
      ∃ l, (rgreedyStep P s st).greedySet = st.greedySet ++ l) ∧
    (∀ st : SelState α, StateWF P st →
      st.greedySet.Disjoint st.remainSet ∧
      (∀ x, (x ∈ st.greedySet ∨ x ∈ st.remainSet) ↔ x < P.N_trn) ∧
      st.greedySet.Nodup) := by
  refine ⟨StateWF.initState P, ?_, ?_, ?_, ?_⟩
  · intro st st' hwf h
    obtain ⟨hwf', b, _, _, hg, _, _⟩ := naiveStep_WF P hrows hwf h
    exact ⟨hwf', [b], hg⟩
  · intro st st' hwf h
    obtain ⟨hwf', b, _, _, _, hg, _, _⟩ := stochStep_WF P hrows hpick hwf h
    exact ⟨hwf', [b], hg⟩
  · intro st hwf
    obtain ⟨hg, _, _, _, _, _⟩ := rgreedyStep_fields P s st
    exact ⟨rgreedyStep_WF P hrows hN s hwf, rgreedySelected s st, hg⟩
  · intro st hwf
    exact ⟨hwf.disjoint, hwf.mem_iff, hwf.greedy_nodup⟩

/-- Witness for C5 at a concrete input. -/
theorem C5_witness :
    StateWF (Pw 3) (initState (Pw 3)) ∧
    (initState (Pw 3)).greedySet.Disjoint (initState (Pw 3)).remainSet := by
  have h := C5_partition_invariant (Pw 3) (Pw_rows 3) (by decide) takePick_valid 1 1
  exact ⟨h.1, (h.2.2.2.2 (initState (Pw 3)) h.1).1⟩

/-- **C3** (corrected).  After every iteration of every strategy
`grads_currX` equals the exact sum, over the current selected set, of the
gradient-cache rows *as originally computed* (`P.grads_per_elem`).  (The claim
as stated — the sum of the rows as they currently stand — fails, because the
first selected element's row is itself mutated through the `grads_currX`
view; see the counterexample and C4.) -/
theorem C3_sum_invariant (P : GLISTERInputs α) (hrows : RowsLen P) (hN : 0 < P.N_trn)
    {pick : ℕ → List ℕ → ℕ → List ℕ} (hpick : ValidSampler pick) (ss s : ℕ)
    {st : SelState α} (hwf : StateWF P st) :
    (∀ st', naiveStep P st = some st' →
      st'.currX = vecSum P.D (st'.greedySet.map P.grads_per_elem)) ∧
    (∀ st', stochStep P pick ss st = some st' →
      st'.currX = vecSum P.D (st'.greedySet.map P.grads_per_elem)) ∧
    (rgreedyStep P s st).currX =
      vecSum P.D ((rgreedyStep P s st).greedySet.map P.grads_per_elem) := by
  refine ⟨?_, ?_, ?_⟩
  · intro st' h
    obtain ⟨hwf', b, _, _, hg, _, _⟩ := naiveStep_WF P hrows hwf h
    exact hwf'.sum_eq (by simp [hg])
  · intro st' h
    obtain ⟨hwf', b, _, _, _, hg, _, _⟩ := stochStep_WF P hrows hpick hwf h
    exact hwf'.sum_eq (by simp [hg])
  · have hwf' := rgreedyStep_WF P hrows hN s hwf
    by_cases hge : (rgreedyStep P s st).greedySet = []
    · obtain ⟨hg, _, _, hx, _, _⟩ := rgreedyStep_fields P s st
      rw [hg] at hge
      rw [List.append_eq_nil] at hge
      have hpos : ¬ 0 < st.numSelected := by
        intro hpos
        exact hwf.pos_iff.mp hpos hge.1
      rw [hx, if_neg hpos, hg, hge.1, hge.2]
      rfl
    · exact hwf'.sum_eq hge

/-- Witness for C3 at a concrete input. -/
theorem C3_witness :
    (rgreedyStep (Pw 3) 1 (initState (Pw 3))).currX =
      vecSum (Pw 3).D ((rgreedyStep (Pw 3) 1 (initState (Pw 3))).greedySet.map
        (Pw 3).grads_per_elem) :=
  (C3_sum_invariant (Pw 3) (Pw_rows 3) (by decide) takePick_valid 1 1
    (StateWF.initState (Pw 3))).2.2

/-- Counterexample to C3 as stated: after the second Naive iteration on the
pool with rows `[1]` and `[2]`, `grads_currX = [3]`, but the sum of the cache
rows of the selected elements *as they stand at that moment* is `[4]` (the
first selected row was mutated in place from `[2]` to `[3]`). -/
theorem C3_counterexample :
    ((naiveLoop (Pw 2) 2 2 (initState (Pw 2))).map fun st =>
      (st.currX, vecSum (Pw 2).D (st.greedySet.map st.cache))) = some ([3], [4]) ∧
    ([3] : Vec ℤ) ≠ [4] := by
  constructor
  · decide
  · decide

/-- **C4** (code bug).  The gradient cache is *not* read-only: under Naive (or
Stochastic), the first selection makes `grads_currX` a view of the winner's
cache row (source line 271), and the in-place `+=` of the next iteration
(line 269 → `_update_gradients_subset`, line 164) writes through the view.
Concretely, with rows `[1]`, `[2]`: element `1` is selected first, and after
the second iteration its cache row has changed from `[2]` to `[3]`. -/
theorem C4_cache_mutated :
    (Pw 2).grads_per_elem 1 = [2] ∧
    ((naiveLoop (Pw 2) 2 2 (initState (Pw 2))).map fun st => st.cache 1) = some [3] ∧
    ([3] : Vec ℤ) ≠ [2] := by
  refine ⟨rfl, ?_, ?_⟩
  · decide
  · decide

/-- **C1** (corrected).  For every valid budget (`0 < budget ≤ N`) and every
gradient cache and validation gradient, the Naive strategy returns exactly
`budget` indices.  The Stochastic strategy does so only when every draw is
feasible, i.e. when the sample size `subset_size = int((N / budget) * ln 100)`
is at least `1` and at most `N - budget + 1` (the remaining set shrinks to
`N - budget + 1` elements before the last draw); otherwise `np.random.choice`
raises (see the counterexample). -/
theorem C1_budget_length (P : GLISTERInputs α) (hrows : RowsLen P) (r : ℕ)
    {pick : ℕ → List ℕ → ℕ → List ℕ} (hpick : ValidSampler pick)
    (budget fuel : ℕ) (hb : 0 < budget) (hbN : budget ≤ P.N_trn)
    (hfuel : budget ≤ fuel) :
    (∃ idx : List ℕ, ∃ w : List α,
      select P "Naive" r pick budget fuel = some (idx, w) ∧ idx.length = budget) ∧
    (1 ≤ (subset_size P.N_trn budget).toNat →
      (subset_size P.N_trn budget).toNat + budget ≤ P.N_trn + 1 →
      ∃ idx : List ℕ, ∃ w : List α,
        select P "Stochastic" r pick budget fuel = some (idx, w) ∧ idx.length = budget) := by
  constructor
  · obtain ⟨st', hloop, _, _, hglen, _⟩ :=
      naiveLoop_run P hrows budget fuel (initState P) (StateWF.initState P)
        (by simp [initState]; omega) (by simp [initState]; omega)
    refine ⟨st'.greedySet, List.replicate budget 1, ?_, ?_⟩
    · rw [select_naive_eq, hloop]
      rfl
    · simp [initState] at hglen
      omega
  · intro hss1 hssN
    obtain ⟨st', hloop, _, _, hglen, _⟩ :=
      stochLoop_run P hrows hpick (subset_size P.N_trn budget).toNat budget hss1 hssN
        fuel (initState P) (StateWF.initState P) (by simp [initState])
        (by simp [initState]; omega)
    refine ⟨st'.greedySet, List.replicate budget 1, ?_, ?_⟩
    · rw [select_stoch_eq P r pick (by omega), hloop]
      rfl
    · simp [initState] at hglen
      omega

/-- Witness for C1 at a concrete input (pool 30, budget 15; the sample size is
`int(2 · ln 100) = 9 ≤ 30 - 15 + 1`, so both branches complete). -/
theorem C1_witness :
    (∃ idx : List ℕ, ∃ w : List ℤ,
      select (Pw 30) "Naive" 15 takePick 15 15 = some (idx, w) ∧ idx.length = 15) ∧
    (∃ idx : List ℕ, ∃ w : List ℤ,
      select (Pw 30) "Stochastic" 15 takePick 15 15 = some (idx, w) ∧ idx.length = 15) := by
  have h := C1_budget_length (Pw 30) (Pw_rows 30) 15 takePick_valid 15 15
    (by decide) (by decide) (by decide)
  refine ⟨h.1, h.2 ?_ ?_⟩
  · rw [show (Pw 30).N_trn = 30 from rfl, subset_size_ratio_two (by norm_num)]
    decide
  · rw [show (Pw 30).N_trn = 30 from rfl, subset_size_ratio_two (by norm_num)]
    decide

/-- Counterexample to C1 as stated: pool 10, budget 5 is a valid budget, but
the Stochastic strategy draws samples of size `int(2 · ln 100) = 9` and the
remaining set has only 8 elements at the third iteration, so
`np.random.choice(remainSet, 9, replace=False)` raises and `select` fails
instead of returning 5 indices. -/
theorem C1_counterexample :
    select (Pw 10) "Stochastic" 15 takePick 5 5 = none ∧
    ¬ ∃ res : List ℕ × List ℤ,
        select (Pw 10) "Stochastic" 15 takePick 5 5 = some res ∧ res.1.length = 5 := by
  have h : select (Pw 10) "Stochastic" 15 takePick 5 5 = none := by
    rw [select_stoch_eq (Pw 10) 15 takePick (by decide),
      show (Pw 10).N_trn = 10 from rfl, subset_size_ratio_two (by norm_num)]
    decide
  refine ⟨h, ?_⟩
  rintro ⟨res, hres, _⟩
  rw [h] at hres
  cases hres

/-- **C2** (corrected).  For a valid budget and `selection_size = s =
int(budget / r) ≥ 1`, RGreedy returns `min(s · ⌈budget / s⌉, N)` indices — the
unique multiple `k·s` of `s` with `budget ≤ k·s < budget + s`, capped at the
pool size; the claimed set `{budget, budget + budget mod (budget // r)}` is
wrong (see the counterexample).  Each iteration commits the
`min(s, |remaining|)` highest-scoring remaining elements, listed in descending
score order and all scoring at least every element left behind. -/
theorem C2_rgreedy (P : GLISTERInputs α) (hrows : RowsLen P) (hN : 0 < P.N_trn)
    {r : ℕ} (hr : r ≠ 0) (pick : ℕ → List ℕ → ℕ → List ℕ) (budget fuel : ℕ)
    (hb : 0 < budget) (hs : 1 ≤ budget / r) (hfuel : budget ≤ fuel * (budget / r)) :
    (∃ idx : List ℕ, ∃ w : List α, ∃ k : ℕ,
      select P "RGreedy" r pick budget fuel = some (idx, w) ∧
      idx.length = min (k * (budget / r)) P.N_trn ∧
      budget ≤ k * (budget / r) ∧ k * (budget / r) - (budget / r) < budget) ∧
    (∀ st : SelState α, StateWF P st →
      (rgreedySelected (budget / r) st).length = min (budget / r) st.remainSet.length ∧
      (rgreedyStep P (budget / r) st).greedySet =
        st.greedySet ++ rgreedySelected (budget / r) st ∧
      (rgreedySelected (budget / r) st).Pairwise (fun x y => score st y ≤ score st x) ∧
      (∀ x ∈ rgreedySelected (budget / r) st, ∀ y ∈ st.remainSet,
        y ∉ rgreedySelected (budget / r) st → score st y ≤ score st x)) := by
  constructor
  · obtain ⟨st', k, hloop, _, hnum, hmin, hle, hlast, _⟩ :=
      rgreedyLoop_run P hrows hN (budget / r) budget hs fuel (initState P)
        (StateWF.initState P) (by simp [initState]) (by simp [initState]; omega)
    refine ⟨st'.greedySet, List.replicate budget 1, k, ?_, ?_, ?_, ?_⟩
    · rw [select_rgreedy_eq P hr, hloop]
      rfl
    · simp [initState] at hnum
      rw [hmin, hnum]
    · simp [initState] at hnum
      omega
    · simp [initState] at hnum
      rcases hlast with hk0 | hlt
      · subst hk0
        simp at hnum
        omega
      · omega
  · intro st hwf
    obtain ⟨_, _, hlen, hpair, hdom⟩ := rgreedySelected_spec (budget / r) st hwf.remain_nodup
    obtain ⟨hg, _, _, _, _, _⟩ := rgreedyStep_fields P (budget / r) st
    exact ⟨hlen, hg, hpair, hdom⟩

/-- Witness for C2 at a concrete input. -/
theorem C2_witness :
    ∃ idx : List ℕ, ∃ w : List ℤ, ∃ k : ℕ,
      select (Pw 20) "RGreedy" 5 takePick 17 17 = some (idx, w) ∧
      idx.length = min (k * (17 / 5)) (Pw 20).N_trn ∧
      17 ≤ k * (17 / 5) ∧ k * (17 / 5) - 17 / 5 < 17 :=
  (C2_rgreedy (Pw 20) (Pw_rows 20) (by decide) (by decide) takePick 17 17
    (by decide) (by decide) (by decide)).1

/-- Counterexample to C2 as stated: with `N = 20`, `budget = 17`, `r = 5`
(`selection_size = 3`), RGreedy returns 18 indices, but the claimed set is
`{17, 17 + 17 mod 3} = {17, 19}`. -/
theorem C2_counterexample :
    ((select (Pw 20) "RGreedy" 5 takePick 17 17).map fun res => res.1.length) = some 18 ∧
    ¬ (18 = 17 ∨ 18 = 17 + 17 % (17 / 5)) := by
  constructor
  · rw [select_rgreedy_eq (Pw 20) (by decide : (5:ℕ) ≠ 0) takePick 17 17]
    decide
  · decide

/-- **C7** (corrected).  A Stochastic iteration draws a without-replacement
sample from the remaining set of size `subset_size = int((N / budget) ·
ln 100)` — a *truncation*, not the claimed `round` — and commits the single
maximal-score element of that sample. -/
theorem C7_stoch_step (P : GLISTERInputs α) {pick : ℕ → List ℕ → ℕ → List ℕ}
    (hpick : ValidSampler pick) (budget : ℕ) {st st' : SelState α}
    (h : stochStep P pick (subset_size P.N_trn budget).toNat st = some st') :
    (subset_size P.N_trn budget).toNat ≤ st.remainSet.length ∧
    (pick st.numSelected st.remainSet (subset_size P.N_trn budget).toNat).length =
      (subset_size P.N_trn budget).toNat ∧
    (∀ x ∈ pick st.numSelected st.remainSet (subset_size P.N_trn budget).toNat,
      x ∈ st.remainSet) ∧
    (st.remainSet.Nodup →
      (pick st.numSelected st.remainSet (subset_size P.N_trn budget).toNat).Nodup) ∧
    ∃ b ∈ pick st.numSelected st.remainSet (subset_size P.N_trn budget).toNat,
      st'.greedySet = st.greedySet ++ [b] ∧
      ∀ x ∈ pick st.numSelected st.remainSet (subset_size P.N_trn budget).toNat,
        score st x ≤ score st b := by
  obtain ⟨hss, hsne, rfl⟩ := stochStep_fields P h
  obtain ⟨hlen, hsub, hnd⟩ := hpick st.numSelected st.remainSet _ hss
  obtain ⟨hmem, hmax⟩ := argmax_elem st _ hsne
  obtain ⟨hg, _, _, _, _, _⟩ :=
    commitOne_fields P st (bestFrom st (pick st.numSelected st.remainSet
      (subset_size P.N_trn budget).toNat))
  exact ⟨hss, hlen, hsub, hnd, _, hmem, hg, hmax⟩

/-- Witness for C7 at a concrete input (pool 10, budget 6, sample size
`int((10/6) · ln 100) = 7`). -/
theorem C7_witness :
    (subset_size (Pw 10).N_trn 6).toNat ≤ (initState (Pw 10)).remainSet.length ∧
    (takePick (initState (Pw 10)).numSelected (initState (Pw 10)).remainSet
      (subset_size (Pw 10).N_trn 6).toNat).length = (subset_size (Pw 10).N_trn 6).toNat ∧
    (∀ x ∈ takePick (initState (Pw 10)).numSelected (initState (Pw 10)).remainSet
      (subset_size (Pw 10).N_trn 6).toNat, x ∈ (initState (Pw 10)).remainSet) ∧
    ((initState (Pw 10)).remainSet.Nodup →
      (takePick (initState (Pw 10)).numSelected (initState (Pw 10)).remainSet
        (subset_size (Pw 10).N_trn 6).toNat).Nodup) ∧
    ∃ b ∈ takePick (initState (Pw 10)).numSelected (initState (Pw 10)).remainSet
        (subset_size (Pw 10).N_trn 6).toNat,
      (commitOne (Pw 10) (initState (Pw 10)) 6).greedySet =
        (initState (Pw 10)).greedySet ++ [b] ∧
      ∀ x ∈ takePick (initState (Pw 10)).numSelected (initState (Pw 10)).remainSet
          (subset_size (Pw 10).N_trn 6).toNat,
        score (initState (Pw 10)) x ≤ score (initState (Pw 10)) b := by
  have hstep : stochStep (Pw 10) takePick (subset_size (Pw 10).N_trn 6).toNat
      (initState (Pw 10)) = some (commitOne (Pw 10) (initState (Pw 10)) 6) := by
    rw [show (Pw 10).N_trn = 10 from rfl, subset_size_10_6,
      show ((7 : ℤ).toNat = 7) from rfl,
      stochStep_succeeds (Pw 10) takePick_valid (by decide) (by decide),
      show bestFrom (initState (Pw 10)) (takePick (initState (Pw 10)).numSelected
        (initState (Pw 10)).remainSet 7) = 6 from by decide]
  exact C7_stoch_step (Pw 10) takePick_valid 6 hstep

/-- Counterexample to C7 as stated: at `N = 10`, `budget = 6` the code's sample
size is `int((10/6) · ln 100) = 7` while the claimed formula gives
`round((10/6) · ln 100) = 8`; observably, the first iteration commits element
`6` (argmax of the 7-element sample `[0..6]` under increasing scores), whereas
a sample of the claimed size 8 would commit element `7`. -/
theorem C7_counterexample :
    subset_size 10 6 = 7 ∧ subset_size_rounded 10 6 = 8 ∧
    ((stochStep (Pw 10) takePick (subset_size 10 6).toNat (initState (Pw 10))).map
      fun st => st.greedySet) = some [6] ∧
    ((stochStep (Pw 10) takePick (subset_size_rounded 10 6).toNat (initState (Pw 10))).map
      fun st => st.greedySet) = some [7] := by
  refine ⟨subset_size_10_6, subset_size_rounded_10_6, ?_, ?_⟩
  · rw [subset_size_10_6]
    decide
  · rw [subset_size_rounded_10_6]
    decide

end GLISTER
